import Mathlib

/-!
Verification of `projects/l2_pooling/noise_tolerance.py`.

The experiment harness is embedded shallowly:

* `noisy` models the function `noisy(pattern, noiseLevel, totalNumCells)`.
  The two sources of randomness are passed explicitly: `removed` is the
  result of `random.sample(noised, n)` (a subset of the pattern of size
  `n`), and `candidates` is the stream of successive `random.randint`
  draws consumed by the rejection loop.  Python floats are modelled as
  rationals and `int(...)` as truncation toward zero (`pyInt`).
* The touch loop of `doExperiment` is embedded by `columnPass`,
  `relaxStep` and `relaxLoop`, parametric in the external `ColumnPooler`
  (an abstract state type with `compute` / `getActiveCells` / `reset`)
  and in the random streams.  Every `compute` invocation is logged as a
  `ComputeCall` so the order of reads and writes can be stated exactly.
-/

/-- `int(q)` of Python on a rational: truncation toward zero. -/
def pyInt (q : ℚ) : ℤ := if 0 ≤ q then ⌊q⌋ else -⌊-q⌋

/-- `max(0.0, min(1.0, q))` from the inference loop. -/
def clamp01 (q : ℚ) : ℚ := max 0 (min 1 q)

/-- Outcome of a call to `noisy`: a normal return, a `ValueError` raised by
`random.sample` (`n` negative or larger than the population), or the
rejection loop running out of random draws without finding `n` fresh
indices (the loop keeps spinning: it never returns). -/
inductive NoisyOutcome where
  | ok (result : Finset ℕ)
  | valueError
  | diverged
deriving DecidableEq

/-- The rejection loop of `noisy` (lines 82-87): repeatedly take the next
`random.randint` draw `v`; if `v` is in neither the original pattern nor
the current noised set, add it and decrement the number of indices still
needed.  `none` means the supplied draws ran out before `k` fresh indices
were found. -/
def addFresh (pattern : Finset ℕ) : Finset ℕ → List ℕ → ℕ → Option (Finset ℕ)
  | acc, [], k => if k = 0 then some acc else none
  | acc, v :: rest, k =>
    if k = 0 then some acc
    else if v ∉ pattern ∧ v ∉ acc then addFresh pattern (insert v acc) rest (k - 1)
    else addFresh pattern acc rest k

/-- `noisy(pattern, noiseLevel, totalNumCells)`: remove
`n = int(noiseLevel * len(pattern))` sampled indices, then add `n` fresh
indices by rejection sampling.  `removed` stands for the
`random.sample(noised, n)` result and `candidates` for the successive
`random.randint(0, totalNumCells - 1)` draws. -/
def noisy (pattern : Finset ℕ) (noiseLevel : ℚ) (totalNumCells : ℕ)
    (removed : Finset ℕ) (candidates : List ℕ) : NoisyOutcome :=
  if pyInt (noiseLevel * pattern.card) < 0 ∨
      (pattern.card : ℤ) < pyInt (noiseLevel * pattern.card) then
    NoisyOutcome.valueError
  else
    match addFresh pattern (pattern \ removed) candidates
        (pyInt (noiseLevel * pattern.card)).toNat with
    | some r => NoisyOutcome.ok r
    | none => NoisyOutcome.diverged

lemma addFresh_spec (pattern : Finset ℕ) :
    ∀ (cands : List ℕ) (acc : Finset ℕ) (k : ℕ) (r : Finset ℕ),
      addFresh pattern acc cands k = some r →
      ∃ A : Finset ℕ, r = acc ∪ A ∧ Disjoint A pattern ∧ Disjoint A acc ∧
        A.card = k ∧ A ⊆ cands.toFinset := by
  intro cands
  induction cands with
  | nil =>
    intro acc k r h
    rw [addFresh] at h
    by_cases hk : k = 0
    · rw [if_pos hk] at h
      obtain rfl : acc = r := Option.some.inj h
      exact ⟨∅, by simp, by simp, by simp, by simp [hk], by simp⟩
    · rw [if_neg hk] at h; cases h
  | cons v rest ih =>
    intro acc k r h
    rw [addFresh] at h
    by_cases hk : k = 0
    · rw [if_pos hk] at h
      obtain rfl : acc = r := Option.some.inj h
      exact ⟨∅, by simp, by simp, by simp, by simp [hk], by simp⟩
    · rw [if_neg hk] at h
      by_cases hc : v ∉ pattern ∧ v ∉ acc
      · rw [if_pos hc] at h
        obtain ⟨A', hr, hdp, hda, hcard, hsub⟩ := ih (insert v acc) (k - 1) r h
        have hvA' : v ∉ A' := fun hv =>
          (Finset.disjoint_left.mp hda hv) (Finset.mem_insert_self v acc)
        refine ⟨insert v A', ?_, ?_, ?_, ?_, ?_⟩
        · rw [hr, Finset.insert_union, Finset.union_insert]
        · rw [Finset.disjoint_insert_left]
          exact ⟨hc.1, hdp⟩
        · rw [Finset.disjoint_insert_left]
          refine ⟨hc.2, ?_⟩
          exact hda.mono_right (Finset.subset_insert v acc)
        · rw [Finset.card_insert_of_not_mem hvA', hcard]
          omega
        · intro x hx
          rcases Finset.mem_insert.mp hx with hxv | hxA
          · simp [hxv]
          · have := hsub hxA
            simp only [List.toFinset_cons, Finset.mem_insert]
            exact Or.inr (by simpa using this)
      · rw [if_neg hc] at h
        obtain ⟨A, hr, hdp, hda, hcard, hsub⟩ := ih acc k r h
        refine ⟨A, hr, hdp, hda, hcard, ?_⟩
        intro x hx
        have := hsub hx
        simp only [List.toFinset_cons, Finset.mem_insert]
        exact Or.inr (by simpa using this)

lemma pyInt_nonneg_floor {q : ℚ} (h : 0 ≤ q) : pyInt q = ⌊q⌋ := by
  simp [pyInt, h]

lemma noisy_n_bounds (pattern : Finset ℕ) (noiseLevel : ℚ)
    (h0 : 0 ≤ noiseLevel) (h1 : noiseLevel ≤ 1) :
    0 ≤ pyInt (noiseLevel * pattern.card) ∧
      pyInt (noiseLevel * pattern.card) ≤ (pattern.card : ℤ) := by
  have hq : (0 : ℚ) ≤ noiseLevel * pattern.card :=
    mul_nonneg h0 (by positivity)
  rw [pyInt_nonneg_floor hq]
  constructor
  · exact Int.floor_nonneg.mpr hq
  · have hle : noiseLevel * (pattern.card : ℚ) ≤ (pattern.card : ℚ) :=
      mul_le_of_le_one_left (by positivity) h1
    calc ⌊noiseLevel * (pattern.card : ℚ)⌋ ≤ ⌊((pattern.card : ℕ) : ℚ)⌋ :=
          Int.floor_le_floor hle
      _ = (pattern.card : ℤ) := Int.floor_natCast _

/-- The external `ColumnPooler` interface (one instance per column):
`compute(feedforwardInput, lateralInputs, learn)` updates the internal
state, `getActiveCells()` reads the current active-cell pattern, and
`reset()` clears the transient activation state. -/
structure ColumnPooler (σ : Type) where
  compute : σ → Finset ℕ → List (Finset ℕ) → Bool → σ
  getActiveCells : σ → Finset ℕ
  reset : σ → σ

/-- A log entry for one `l2.compute(feedforwardInput, lateralInputs, learn)`
invocation performed by the touch loop. -/
structure ComputeCall where
  column : ℕ
  feedforward : Finset ℕ
  lateral : List (Finset ℕ)
  learn : Bool
deriving DecidableEq

/-- Result of a piece of the touch loop: the updated column states, the
position reached on the random tape, and the `compute` calls performed,
in order. -/
structure StepResult (σ : Type) where
  cols : List σ
  pos : ℕ
  calls : List ComputeCall
deriving DecidableEq

/-- The inner `for columnNumber, l2 in enumerate(l2Columns)` loop of one
relaxation step.  `snapshot` is `allLateralInputs`, computed before the
loop; `ff i pos` produces column `i`'s feedforward input, consuming the
random tape from position `pos`.  Each column receives
`snapshot` with its own entry removed as lateral input. -/
def columnPass {σ : Type} (P : ColumnPooler σ) (ff : ℕ → ℕ → Finset ℕ × ℕ)
    (snapshot : List (Finset ℕ)) (learn : Bool) :
    List σ → ℕ → ℕ → StepResult σ
  | [], _, pos => ⟨[], pos, []⟩
  | s :: rest, i, pos =>
    let f := ff i pos
    let lats := snapshot.eraseIdx i
    let s2 := P.compute s f.1 lats learn
    let r := columnPass P ff snapshot learn rest (i + 1) f.2
    ⟨s2 :: r.cols, r.pos, ⟨i, f.1, lats, learn⟩ :: r.calls⟩

/-- One relaxation step: first take the snapshot
`allLateralInputs = [l2.getActiveCells() for l2 in l2Columns]`, then run
the per-column loop against that snapshot. -/
def relaxStep {σ : Type} (P : ColumnPooler σ) (ff : ℕ → ℕ → Finset ℕ × ℕ)
    (learn : Bool) (cols : List σ) (pos : ℕ) : StepResult σ :=
  columnPass P ff (cols.map P.getActiveCells) learn cols 0 pos

/-- `n` successive relaxation steps (the `for _ in xrange(3)` /
`for _ in xrange(4)` loops), threading column states and tape position. -/
def relaxLoop {σ : Type} (P : ColumnPooler σ) (ff : ℕ → ℕ → Finset ℕ × ℕ)
    (learn : Bool) : ℕ → List σ → ℕ → StepResult σ
  | 0, cols, pos => ⟨cols, pos, []⟩
  | n + 1, cols, pos =>
    let r := relaxStep P ff learn cols pos
    let r2 := relaxLoop P ff learn n r.cols r.pos
    ⟨r2.cols, r2.pos, r.calls ++ r2.calls⟩

/-- The learning pass for one feature-location (lines 141-148): four
iterations, each taking a fresh lateral snapshot and then calling every
column's `compute` once with that column's codebook pattern
`featureLocationSDRs[columnNumber][featureLocationName]` and
`learn=True`.  No randomness is consumed by this loop itself. -/
def learnFeatureLocation {σ FL : Type} (P : ColumnPooler σ)
    (sdrOf : ℕ → FL → Finset ℕ) (fl : FL) (cols : List σ) (pos : ℕ) :
    StepResult σ :=
  relaxLoop P (fun i p => (sdrOf i fl, p)) true 4 cols pos

/-- Running the learning pass over all feature-locations of one object,
without the capture/reset epilogue (lines 138-148). -/
def learnTouches {σ FL : Type} (P : ColumnPooler σ)
    (sdrOf : ℕ → FL → Finset ℕ) (fls : List FL) (cols : List σ) :
    List σ :=
  fls.foldl (fun cs fl => (learnFeatureLocation P sdrOf fl cs 0).cols) cols

/-- The per-object learning body (lines 138-152): traverse all
feature-locations, then record
`objectL2Representations[objectName] = [set(l2.getActiveCells()) ...]`,
then `l2.reset()` every column.  Returns the captured representation and
the post-reset states. -/
def learnObject {σ FL : Type} (P : ColumnPooler σ)
    (sdrOf : ℕ → FL → Finset ℕ) (fls : List FL) (cols : List σ) :
    List (Finset ℕ) × List σ :=
  let afterTouches :=
    fls.foldl (fun cs fl => (learnFeatureLocation P sdrOf fl cs 0).cols) cols
  (afterTouches.map P.getActiveCells, afterTouches.map P.reset)

/-- The feedforward producer of the inference loop (lines 178-184): at tape
position `pos`, draw `noiseLevel = random.gauss(noiseMu, noiseSigma)`
(the raw draw is `gaussVals pos`), clamp it to `[0, 1]`, then call
`noisy` on the column's codebook pattern (the internal draws of `noisy`
are abstracted as the tape cell `pos + 1`, so one call advances the tape
by two).  `basePattern i` is
`featureLocationSDRs[i][featureLocations[sensorPositions[i]]]`. -/
def inferFF (gaussVals : ℕ → ℚ) (noisyOut : ℕ → Finset ℕ → ℚ → Finset ℕ)
    (basePattern : ℕ → Finset ℕ) : ℕ → ℕ → Finset ℕ × ℕ :=
  fun i pos =>
    (noisyOut (pos + 1) (basePattern i) (clamp01 (gaussVals pos)), pos + 2)

/-- One inference touch (lines 175-190): three relaxation steps with
`learn=False`, the feedforward input produced by `inferFF`. -/
def inferTouch {σ : Type} (P : ColumnPooler σ) (gaussVals : ℕ → ℚ)
    (noisyOut : ℕ → Finset ℕ → ℚ → Finset ℕ)
    (basePattern : ℕ → Finset ℕ) (cols : List σ) (pos : ℕ) :
    StepResult σ :=
  relaxLoop P (inferFF gaussVals noisyOut basePattern) false 3 cols pos

/-- The test-touch recording step (lines 192-198): for each column, pair
the size of the intersection and of the difference between its active
cells and the learned representation for the object. -/
def recordResults {σ : Type} (P : ColumnPooler σ) (cols : List σ)
    (learned : List (Finset ℕ)) : List (ℕ × ℕ) :=
  List.zipWith
    (fun s L => ((P.getActiveCells s ∩ L).card, (P.getActiveCells s \ L).card))
    cols learned

/-- The per-key aggregation of `varyNumColumns` (lines 242-247): the
number of trial results meeting both thresholds divided by the number of
trials; `none` models the `ZeroDivisionError` on an empty key. -/
def summarize (trials : List (ℕ × ℕ)) (correctThreshold incorrectThreshold : ℕ) :
    Option ℚ :=
  if trials.length = 0 then none
  else
    some
      (((trials.filter
            (fun p => correctThreshold ≤ p.1 ∧ p.2 ≤ incorrectThreshold)).length : ℚ) /
        (trials.length : ℚ))

/-- A concrete `ColumnPooler` instance used to exercise the loop
embeddings: the state is the log of `compute` arguments received, the
active-cell pattern is the singleton of the log length (so it changes on
every `compute`), and `reset` clears the log. -/
abbrev TraceState := List (Finset ℕ × List (Finset ℕ) × Bool)

def tracePooler : ColumnPooler TraceState where
  compute := fun s fff lats learn => s ++ [(fff, lats, learn)]
  getActiveCells := fun s => {s.length}
  reset := fun _ => []

lemma columnPass_lateral {σ : Type} (P : ColumnPooler σ)
    (ff : ℕ → ℕ → Finset ℕ × ℕ) (snapshot : List (Finset ℕ)) (learn : Bool) :
    ∀ (states : List σ) (i pos : ℕ),
      ∀ c ∈ (columnPass P ff snapshot learn states i pos).calls,
        c.lateral = snapshot.eraseIdx c.column := by
  intro states
  induction states with
  | nil => intro i pos c hc; simp [columnPass] at hc
  | cons s rest ih =>
    intro i pos c hc
    simp only [columnPass, List.mem_cons] at hc
    rcases hc with hc | hc
    · subst hc; rfl
    · exact ih (i + 1) _ c hc

lemma columnPass_cols_length {σ : Type} (P : ColumnPooler σ)
    (ff : ℕ → ℕ → Finset ℕ × ℕ) (snapshot : List (Finset ℕ)) (learn : Bool) :
    ∀ (states : List σ) (i pos : ℕ),
      (columnPass P ff snapshot learn states i pos).cols.length = states.length := by
  intro states
  induction states with
  | nil => intro i pos; rfl
  | cons s rest ih =>
    intro i pos
    simp only [columnPass, List.length_cons]
    rw [ih]

lemma columnPass_calls_column {σ : Type} (P : ColumnPooler σ)
    (ff : ℕ → ℕ → Finset ℕ × ℕ) (snapshot : List (Finset ℕ)) (learn : Bool) :
    ∀ (states : List σ) (i pos : ℕ),
      (columnPass P ff snapshot learn states i pos).calls.map ComputeCall.column =
        List.range' i states.length := by
  intro states
  induction states with
  | nil => intro i pos; rfl
  | cons s rest ih =>
    intro i pos
    simp only [columnPass, List.map_cons, List.length_cons, List.range'_succ]
    rw [ih]

lemma columnPass_fields {σ : Type} (P : ColumnPooler σ)
    (ff : ℕ → ℕ → Finset ℕ × ℕ) (snapshot : List (Finset ℕ)) (learn : Bool)
    (g : ℕ → Finset ℕ) (hff : ∀ i p, (ff i p).1 = g i) :
    ∀ (states : List σ) (i pos : ℕ),
      ∀ c ∈ (columnPass P ff snapshot learn states i pos).calls,
        c.learn = learn ∧ c.feedforward = g c.column := by
  intro states
  induction states with
  | nil => intro i pos c hc; simp [columnPass] at hc
  | cons s rest ih =>
    intro i pos c hc
    simp only [columnPass, List.mem_cons] at hc
    rcases hc with hc | hc
    · subst hc; exact ⟨rfl, hff i pos⟩
    · exact ih (i + 1) _ c hc

lemma relaxStep_lateral {σ : Type} (P : ColumnPooler σ)
    (ff : ℕ → ℕ → Finset ℕ × ℕ) (learn : Bool) (cols : List σ) (pos : ℕ) :
    ∀ c ∈ (relaxStep P ff learn cols pos).calls,
      c.lateral = (cols.map P.getActiveCells).eraseIdx c.column :=
  columnPass_lateral P ff (cols.map P.getActiveCells) learn cols 0 pos

lemma relaxStep_cols_length {σ : Type} (P : ColumnPooler σ)
    (ff : ℕ → ℕ → Finset ℕ × ℕ) (learn : Bool) (cols : List σ) (pos : ℕ) :
    (relaxStep P ff learn cols pos).cols.length = cols.length :=
  columnPass_cols_length P ff _ learn cols 0 pos

lemma relaxStep_calls_column {σ : Type} (P : ColumnPooler σ)
    (ff : ℕ → ℕ → Finset ℕ × ℕ) (learn : Bool) (cols : List σ) (pos : ℕ) :
    (relaxStep P ff learn cols pos).calls.map ComputeCall.column =
      List.range cols.length := by
  rw [relaxStep, columnPass_calls_column, List.range_eq_range']

lemma relaxLoop_succ {σ : Type} (P : ColumnPooler σ)
    (ff : ℕ → ℕ → Finset ℕ × ℕ) (learn : Bool) (n : ℕ) (cols : List σ) (pos : ℕ) :
    relaxLoop P ff learn (n + 1) cols pos =
      ⟨(relaxLoop P ff learn n (relaxStep P ff learn cols pos).cols
          (relaxStep P ff learn cols pos).pos).cols,
       (relaxLoop P ff learn n (relaxStep P ff learn cols pos).cols
          (relaxStep P ff learn cols pos).pos).pos,
       (relaxStep P ff learn cols pos).calls ++
         (relaxLoop P ff learn n (relaxStep P ff learn cols pos).cols
            (relaxStep P ff learn cols pos).pos).calls⟩ := rfl

lemma relaxLoop_cols_length {σ : Type} (P : ColumnPooler σ)
    (ff : ℕ → ℕ → Finset ℕ × ℕ) (learn : Bool) :
    ∀ (n : ℕ) (cols : List σ) (pos : ℕ),
      (relaxLoop P ff learn n cols pos).cols.length = cols.length := by
  intro n
  induction n with
  | zero => intro cols pos; rfl
  | succ n ih =>
    intro cols pos
    rw [relaxLoop_succ]
    simpa [ih] using relaxStep_cols_length P ff learn cols pos

lemma relaxLoop_calls_column {σ : Type} (P : ColumnPooler σ)
    (ff : ℕ → ℕ → Finset ℕ × ℕ) (learn : Bool) :
    ∀ (n : ℕ) (cols : List σ) (pos : ℕ),
      (relaxLoop P ff learn n cols pos).calls.map ComputeCall.column =
        (List.replicate n (List.range cols.length)).flatten := by
  intro n
  induction n with
  | zero => intro cols pos; rfl
  | succ n ih =>
    intro cols pos
    rw [relaxLoop_succ]
    simp only [List.replicate_succ, List.flatten_cons, List.map_append]
    rw [relaxStep_calls_column, ih, relaxStep_cols_length]

lemma relaxLoop_fields {σ : Type} (P : ColumnPooler σ)
    (ff : ℕ → ℕ → Finset ℕ × ℕ) (learn : Bool)
    (g : ℕ → Finset ℕ) (hff : ∀ i p, (ff i p).1 = g i) :
    ∀ (n : ℕ) (cols : List σ) (pos : ℕ),
      ∀ c ∈ (relaxLoop P ff learn n cols pos).calls,
        c.learn = learn ∧ c.feedforward = g c.column := by
  intro n
  induction n with
  | zero => intro cols pos c hc; simp [relaxLoop] at hc
  | succ n ih =>
    intro cols pos c hc
    rw [relaxLoop_succ] at hc
    rcases List.mem_append.mp hc with hc | hc
    · exact columnPass_fields P ff _ learn g hff cols 0 pos c hc
    · exact ih _ _ c hc


lemma addFresh_zero (pattern acc : Finset ℕ) (cands : List ℕ) :
    addFresh pattern acc cands 0 = some acc := by
  cases cands <;> rfl

lemma noisy_ok_inv (pattern : Finset ℕ) (noiseLevel : ℚ) (U : ℕ)
    (removed : Finset ℕ) (cands : List ℕ) (r : Finset ℕ)
    (hok : noisy pattern noiseLevel U removed cands = NoisyOutcome.ok r) :
    addFresh pattern (pattern \ removed) cands
      (pyInt (noiseLevel * pattern.card)).toNat = some r := by
  unfold noisy at hok
  by_cases h : pyInt (noiseLevel * pattern.card) < 0 ∨
      (pattern.card : ℤ) < pyInt (noiseLevel * pattern.card)
  · rw [if_pos h] at hok; exact absurd hok (by simp)
  · rw [if_neg h] at hok
    cases haf : addFresh pattern (pattern \ removed) cands
        (pyInt (noiseLevel * pattern.card)).toNat with
    | none => rw [haf] at hok; exact absurd hok (by simp)
    | some a =>
      rw [haf] at hok
      simp only [NoisyOutcome.ok.injEq] at hok
      rw [hok]

lemma noisy_eval (pattern removed : Finset ℕ) (noiseLevel : ℚ) (U : ℕ)
    (cands : List ℕ) (n : ℤ) (hn : pyInt (noiseLevel * pattern.card) = n)
    (h0n : 0 ≤ n) (hle : n ≤ (pattern.card : ℤ)) :
    noisy pattern noiseLevel U removed cands =
      match addFresh pattern (pattern \ removed) cands n.toNat with
      | some r => NoisyOutcome.ok r
      | none => NoisyOutcome.diverged := by
  unfold noisy
  rw [hn, if_neg (by omega)]

lemma card_four : ((({0, 1, 2, 3} : Finset ℕ).card : ℚ)) = 4 := by
  rw [show ({0, 1, 2, 3} : Finset ℕ).card = 4 by decide]
  norm_num

lemma pyInt_half_of_four :
    pyInt ((1 / 2 : ℚ) * (({0, 1, 2, 3} : Finset ℕ).card : ℚ)) = 2 := by
  rw [card_four]
  norm_num [pyInt]

lemma pyInt_one_of_two :
    pyInt ((1 : ℚ) * (({0, 1} : Finset ℕ).card : ℚ)) = 2 := by
  rw [show ({0, 1} : Finset ℕ).card = 2 by decide]
  norm_num [pyInt]

lemma pyInt_one_of_one :
    pyInt ((1 : ℚ) * (({0} : Finset ℕ).card : ℚ)) = 1 := by
  rw [show ({0} : Finset ℕ).card = 1 by decide]
  norm_num [pyInt]

lemma pyInt_two_of_one :
    pyInt ((2 : ℚ) * (({0} : Finset ℕ).card : ℚ)) = 2 := by
  rw [show ({0} : Finset ℕ).card = 1 by decide]
  norm_num [pyInt]

/-- Claim C2: for a non-empty pattern, a noise level in `[0, 1]` and a
universe large enough to hold `n = int(noiseLevel * len(pattern))` fresh
indices, a pattern returned by `noisy` has exactly the cardinality of
the input pattern.  `removed` carries the `random.sample` side
conditions: it is a subset of the pattern of size `n`. -/
theorem noisy_card_preserved (pattern removed : Finset ℕ) (noiseLevel : ℚ)
    (U : ℕ) (cands : List ℕ) (r : Finset ℕ)
    (hne : pattern.Nonempty) (h0 : 0 ≤ noiseLevel) (h1 : noiseLevel ≤ 1)
    (hU : (pyInt (noiseLevel * pattern.card)).toNat ≤ U - pattern.card)
    (hsub : removed ⊆ pattern)
    (hcard : removed.card = (pyInt (noiseLevel * pattern.card)).toNat)
    (hok : noisy pattern noiseLevel U removed cands = NoisyOutcome.ok r) :
    r.card = pattern.card := by
  have haf := noisy_ok_inv _ _ _ _ _ _ hok
  obtain ⟨A, hr, hdp, hda, hcA, hsubA⟩ := addFresh_spec pattern cands _ _ _ haf
  have hdisj : Disjoint A (pattern \ removed) := hdp.mono_right Finset.sdiff_subset
  have hrme : removed.card ≤ pattern.card := Finset.card_le_card hsub
  rw [hr, Finset.card_union_of_disjoint hdisj.symm, Finset.card_sdiff hsub,
    hcA, ← hcard]
  exact Nat.sub_add_cancel hrme

theorem noisy_card_preserved_witness :
    (insert 8 (insert 7 (({0, 1, 2, 3} : Finset ℕ) \ {0, 1}))).card =
      Finset.card ({0, 1, 2, 3} : Finset ℕ) :=
  noisy_card_preserved {0, 1, 2, 3} {0, 1} (1 / 2) 10 [7, 8]
    (insert 8 (insert 7 (({0, 1, 2, 3} : Finset ℕ) \ {0, 1})))
    (by decide) (by norm_num) (by norm_num)
    (by rw [pyInt_half_of_four]; decide)
    (by decide)
    (by rw [pyInt_half_of_four]; decide)
    (by rw [noisy_eval {0, 1, 2, 3} {0, 1} (1 / 2) 10 [7, 8] 2
          pyInt_half_of_four (by decide) (by decide)]
        decide)

/-- Claim C3: for a non-empty pattern whose indices lie below the universe
size, `noisy` at noise level 0 returns the pattern itself (for every
random draw, the `random.sample` side condition being an empty removal
set), and at noise level 1 (where `random.sample` removes the whole
pattern) any returned pattern is disjoint from the input pattern. -/
theorem noisy_level_extremes (pattern : Finset ℕ) (U : ℕ)
    (hne : pattern.Nonempty) (hidx : ∀ i ∈ pattern, i < U) :
    (∀ (removed : Finset ℕ) (cands : List ℕ), removed ⊆ pattern →
        removed.card = 0 →
        noisy pattern 0 U removed cands = NoisyOutcome.ok pattern) ∧
    (∀ (removed : Finset ℕ) (cands : List ℕ) (r : Finset ℕ),
        removed ⊆ pattern → removed.card = pattern.card →
        noisy pattern 1 U removed cands = NoisyOutcome.ok r →
        r ∩ pattern = ∅) := by
  constructor
  · intro removed cands hsub hc0
    have hrem : removed = ∅ := Finset.card_eq_zero.mp hc0
    subst hrem
    have h00 : pyInt ((0 : ℚ) * pattern.card) = 0 := by norm_num [pyInt]
    rw [noisy_eval pattern ∅ 0 U cands 0 h00 le_rfl (by positivity),
      Finset.sdiff_empty, Int.toNat_zero, addFresh_zero]
  · intro removed cands r hsub hcfull hok
    have hrem : removed = pattern :=
      Finset.eq_of_subset_of_card_le hsub (le_of_eq hcfull.symm)
    rw [hrem] at hok
    have haf := noisy_ok_inv _ _ _ _ _ _ hok
    rw [Finset.sdiff_self] at haf
    obtain ⟨A, hr, hdp, -, -, -⟩ := addFresh_spec _ cands _ _ _ haf
    rw [hr, Finset.empty_union]
    exact Finset.disjoint_iff_inter_eq_empty.mp hdp

theorem noisy_level_extremes_witness :
    noisy {0, 1} 0 5 ∅ [] = NoisyOutcome.ok {0, 1} ∧
    (insert 3 (insert 2 (({0, 1} : Finset ℕ) \ {0, 1}))) ∩ {0, 1} = ∅ :=
  ⟨(noisy_level_extremes {0, 1} 5 (by decide) (by decide)).1 ∅ []
      (by decide) (by decide),
   (noisy_level_extremes {0, 1} 5 (by decide) (by decide)).2 {0, 1} [2, 3]
      (insert 3 (insert 2 (({0, 1} : Finset ℕ) \ {0, 1})))
      (by decide) (by decide)
      (by rw [noisy_eval {0, 1} {0, 1} 1 5 [2, 3] 2 pyInt_one_of_two
            (by decide) (by decide)]
          decide)⟩

/-- Claim C9: with the `random.sample` side conditions, a successful
`noisy` call keeps exactly `|pattern| - n` indices of the pattern and
introduces exactly `n` indices outside it, where
`n = int(noiseLevel * len(pattern))`; and whenever
`noiseLevel * |pattern| < 1`, `n = 0` and the call returns the pattern
unchanged for every random draw, even at a strictly positive noise
level. -/
theorem noisy_overlap_counts (pattern removed : Finset ℕ) (noiseLevel : ℚ)
    (U : ℕ)
    (hne : pattern.Nonempty) (h0 : 0 ≤ noiseLevel) (h1 : noiseLevel ≤ 1)
    (hsub : removed ⊆ pattern)
    (hcard : removed.card = (pyInt (noiseLevel * pattern.card)).toNat) :
    (∀ (cands : List ℕ) (r : Finset ℕ),
        noisy pattern noiseLevel U removed cands = NoisyOutcome.ok r →
        (r ∩ pattern).card =
            pattern.card - (pyInt (noiseLevel * pattern.card)).toNat ∧
        (r \ pattern).card = (pyInt (noiseLevel * pattern.card)).toNat) ∧
    (noiseLevel * pattern.card < 1 →
      ∀ cands : List ℕ,
        noisy pattern noiseLevel U removed cands = NoisyOutcome.ok pattern) := by
  constructor
  · intro cands r hok
    have haf := noisy_ok_inv _ _ _ _ _ _ hok
    obtain ⟨A, hr, hdp, hda, hcA, hsubA⟩ := addFresh_spec pattern cands _ _ _ haf
    have hint : r ∩ pattern = pattern \ removed := by
      rw [hr, Finset.union_inter_distrib_right,
        Finset.inter_eq_left.mpr Finset.sdiff_subset,
        Finset.disjoint_iff_inter_eq_empty.mp hdp, Finset.union_empty]
    have hdiff : r \ pattern = A := by
      rw [hr, Finset.union_sdiff_distrib,
        Finset.sdiff_eq_empty_iff_subset.mpr Finset.sdiff_subset,
        Finset.empty_union]
      exact Finset.sdiff_eq_self_iff_disjoint.mpr hdp
    exact ⟨by rw [hint, Finset.card_sdiff hsub, hcard], by rw [hdiff, hcA]⟩
  · intro hlt cands
    have hq : (0 : ℚ) ≤ noiseLevel * pattern.card :=
      mul_nonneg h0 (by positivity)
    have hn : pyInt (noiseLevel * pattern.card) = 0 := by
      rw [pyInt_nonneg_floor hq]
      exact Int.floor_eq_zero_iff.mpr ⟨hq, hlt⟩
    have hrem : removed = ∅ :=
      Finset.card_eq_zero.mp (by rw [hcard, hn]; rfl)
    subst hrem
    rw [noisy_eval pattern ∅ noiseLevel U cands 0 hn le_rfl (by positivity),
      Finset.sdiff_empty, Int.toNat_zero, addFresh_zero]

theorem noisy_overlap_counts_witness :
    ((insert 8 (insert 7 (({0, 1, 2, 3} : Finset ℕ) \ {0, 1}))) ∩
          {0, 1, 2, 3}).card =
        Finset.card {0, 1, 2, 3} -
          (pyInt ((1 / 2 : ℚ) * (({0, 1, 2, 3} : Finset ℕ).card : ℚ))).toNat ∧
    ((insert 8 (insert 7 (({0, 1, 2, 3} : Finset ℕ) \ {0, 1}))) \
          {0, 1, 2, 3}).card =
        (pyInt ((1 / 2 : ℚ) * (({0, 1, 2, 3} : Finset ℕ).card : ℚ))).toNat :=
  (noisy_overlap_counts {0, 1, 2, 3} {0, 1} (1 / 2) 10 (by decide)
      (by norm_num) (by norm_num) (by decide)
      (by rw [pyInt_half_of_four]; decide)).1 [7, 8]
    (insert 8 (insert 7 (({0, 1, 2, 3} : Finset ℕ) \ {0, 1})))
    (by rw [noisy_eval {0, 1, 2, 3} {0, 1} (1 / 2) 10 [7, 8] 2
          pyInt_half_of_four (by decide) (by decide)]
        decide)

/-- Claim C4 counterexample: at `pattern = {0}`, `noiseLevel = 1`,
`universeSize = 1` (so `n = 1 ≤ |pattern|` but
`universeSize - |pattern| = 0 < n`), the call does not terminate with an
error: every `random.randint` draw is rejected and the loop spins
(modelled as `diverged`), which is not the claimed `InvalidArgument`
failure. -/
theorem noisy_infeasible_no_error_example :
    noisy {0} 1 1 {0} [0, 0, 0, 0, 0] = NoisyOutcome.diverged ∧
    NoisyOutcome.diverged ≠ NoisyOutcome.valueError := by
  constructor
  · rw [noisy_eval {0} {0} 1 1 [0, 0, 0, 0, 0] 1 pyInt_one_of_one
      (by decide) (by decide)]
    decide
  · decide

/-- Claim C4 (amended): when `n = int(noiseLevel * len(pattern))` exceeds
the pattern size (or is negative), `noisy` terminates with the
`random.sample` `ValueError`; but when `n` is within the sample's range
and the universe is too small (`universeSize - |pattern| < n`), no error
is raised: for every sequence of in-range `random.randint` draws the
rejection loop cannot complete, i.e. the call never terminates. -/
theorem noisy_infeasible_behaviour :
    (∀ (pattern removed : Finset ℕ) (noiseLevel : ℚ) (U : ℕ)
        (cands : List ℕ),
      (pattern.card : ℤ) < pyInt (noiseLevel * pattern.card) →
      noisy pattern noiseLevel U removed cands = NoisyOutcome.valueError) ∧
    (∀ (pattern removed : Finset ℕ) (noiseLevel : ℚ) (U : ℕ)
        (cands : List ℕ),
      0 ≤ noiseLevel → noiseLevel ≤ 1 →
      (∀ i ∈ pattern, i < U) → (∀ v ∈ cands, v < U) →
      U < pattern.card + (pyInt (noiseLevel * pattern.card)).toNat →
      noisy pattern noiseLevel U removed cands = NoisyOutcome.diverged) := by
  constructor
  · intro pattern removed noiseLevel U cands h
    unfold noisy
    rw [if_pos (Or.inr h)]
  · intro pattern removed noiseLevel U cands h0 h1 hidx hcands hU
    obtain ⟨hn0, hnle⟩ := noisy_n_bounds pattern noiseLevel h0 h1
    unfold noisy
    rw [if_neg (by omega)]
    cases haf : addFresh pattern (pattern \ removed) cands
        (pyInt (noiseLevel * pattern.card)).toNat with
    | none => rfl
    | some r =>
      exfalso
      obtain ⟨A, hr, hdp, hda, hcA, hsubA⟩ :=
        addFresh_spec pattern cands _ _ _ haf
      have hPU : pattern ⊆ Finset.range U := fun x hx =>
        Finset.mem_range.mpr (hidx x hx)
      have hAsub : A ⊆ Finset.range U \ pattern := by
        intro x hx
        refine Finset.mem_sdiff.mpr ⟨?_, Finset.disjoint_left.mp hdp hx⟩
        exact Finset.mem_range.mpr (hcands x (List.mem_toFinset.mp (hsubA hx)))
      have hle2 : A.card ≤ (Finset.range U \ pattern).card :=
        Finset.card_le_card hAsub
      rw [Finset.card_sdiff hPU, Finset.card_range] at hle2
      have hcardU : pattern.card ≤ U := by
        simpa using Finset.card_le_card hPU
      rw [hcA] at hle2
      omega

theorem noisy_infeasible_behaviour_witness :
    noisy {0} 2 10 ∅ [5] = NoisyOutcome.valueError ∧
    noisy {0} 1 1 {0} [0, 0] = NoisyOutcome.diverged :=
  ⟨noisy_infeasible_behaviour.1 {0} ∅ 2 10 [5]
      (by rw [pyInt_two_of_one]; decide),
   noisy_infeasible_behaviour.2 {0} {0} 1 1 [0, 0] (by norm_num) (by norm_num)
      (by decide) (by decide) (by rw [pyInt_one_of_one]; decide)⟩

/-- Claim C1 (code-level evaluation at the failing input): lines 178-184
sit inside the `for _ in xrange(3)` relaxation loop, so during one
inference touch each column draws a fresh `random.gauss` noise level and
generates a fresh noisy feedforward pattern in every relaxation step.
With one column, a single touch consumes six random-tape cells (three
gauss draws plus three `noisy` calls instead of one of each, which would
consume two), and the three relaxation steps receive three pairwise
different feedforward patterns, contradicting the docstring's "the noise
level for each column's input is determined once per touch". -/
theorem inferTouch_redraws_noise_each_step :
    (inferTouch tracePooler (fun n => (n : ℚ) / 10)
        (fun pos base _ => insert (100 + pos) base) (fun _ => {0})
        [([] : TraceState)] 0).pos = 6 ∧
    (inferTouch tracePooler (fun n => (n : ℚ) / 10)
        (fun pos base _ => insert (100 + pos) base) (fun _ => {0})
        [([] : TraceState)] 0).calls.map
        (fun c => decide (101 ∈ c.feedforward)) = [true, false, false] ∧
    (inferTouch tracePooler (fun n => (n : ℚ) / 10)
        (fun pos base _ => insert (100 + pos) base) (fun _ => {0})
        [([] : TraceState)] 0).calls.map
        (fun c => decide (103 ∈ c.feedforward)) = [false, true, false] ∧
    (inferTouch tracePooler (fun n => (n : ℚ) / 10)
        (fun pos base _ => insert (100 + pos) base) (fun _ => {0})
        [([] : TraceState)] 0).calls.map
        (fun c => decide (105 ∈ c.feedforward)) = [false, false, true] := by
  exact ⟨by decide, by decide, by decide, by decide⟩

/-- Claim C5: in every relaxation step of every touch, the lateral input
passed to a column's `compute` equals the pre-step snapshot of all
columns' active cells with the column's own entry removed; and every
`compute` call of a multi-step settle belongs to some step `t`, whose
entry states are those produced by the previous `t` steps — so no column
ever observes a sibling's activation from the current,
still-in-progress step. -/
theorem relax_lateral_snapshot :
    (∀ (σ : Type) (P : ColumnPooler σ) (ff : ℕ → ℕ → Finset ℕ × ℕ)
        (learn : Bool) (cols : List σ) (pos : ℕ),
      ∀ c ∈ (relaxStep P ff learn cols pos).calls,
        c.lateral = (cols.map P.getActiveCells).eraseIdx c.column) ∧
    (∀ (σ : Type) (P : ColumnPooler σ) (ff : ℕ → ℕ → Finset ℕ × ℕ)
        (learn : Bool) (n : ℕ) (cols : List σ) (pos : ℕ),
      ∀ c ∈ (relaxLoop P ff learn n cols pos).calls,
        ∃ t, t < n ∧
          c ∈ (relaxStep P ff learn (relaxLoop P ff learn t cols pos).cols
              (relaxLoop P ff learn t cols pos).pos).calls) := by
  constructor
  · intro σ P ff learn cols pos c hc
    exact relaxStep_lateral P ff learn cols pos c hc
  · intro σ P ff learn n
    induction n with
    | zero => intro cols pos c hc; simp [relaxLoop] at hc
    | succ n ih =>
      intro cols pos c hc
      rw [relaxLoop_succ] at hc
      rcases List.mem_append.mp hc with hc | hc
      · exact ⟨0, Nat.succ_pos n, hc⟩
      · obtain ⟨t, ht, hmem⟩ := ih (relaxStep P ff learn cols pos).cols
          (relaxStep P ff learn cols pos).pos c hc
        exact ⟨t + 1, Nat.succ_lt_succ ht, hmem⟩

theorem relax_lateral_snapshot_witness :
    ((⟨1, {1}, [{0}], true⟩ : ComputeCall) ∈
      (relaxStep tracePooler (fun i p => ({i}, p)) true
        [([] : TraceState), []] 0).calls) ∧
    (⟨1, {1}, [{0}], true⟩ : ComputeCall).lateral =
      (([([] : TraceState), []]).map tracePooler.getActiveCells).eraseIdx
        (⟨1, {1}, [{0}], true⟩ : ComputeCall).column :=
  ⟨by decide,
   relax_lateral_snapshot.1 TraceState tracePooler (fun i p => ({i}, p)) true
     [[], []] 0 ⟨1, {1}, [{0}], true⟩ (by decide)⟩

/-- Claim C6: for every object, the captured representation is each
column's active-cell pattern right after the final compute of the final
touch (the `learnTouches` states), and the reset comes strictly after:
the returned column states are the reset images of those same
pre-capture states.  Concretely, with the trace pooler the captured
pattern `{4}` differs from the post-reset active pattern `{0}`, so the
recorded representation is never the cleared state. -/
theorem learnObject_capture_before_reset :
    (∀ (σ FL : Type) (P : ColumnPooler σ) (sdrOf : ℕ → FL → Finset ℕ)
        (fls : List FL) (cols : List σ),
      (learnObject P sdrOf fls cols).1 =
          (learnTouches P sdrOf fls cols).map P.getActiveCells ∧
        (learnObject P sdrOf fls cols).2 =
          (learnTouches P sdrOf fls cols).map P.reset) ∧
    (learnObject tracePooler (fun _ _ => ({0} : Finset ℕ)) [()]
        [([] : TraceState)]).1 = [{4}] ∧
    ((learnObject tracePooler (fun _ _ => ({0} : Finset ℕ)) [()]
        [([] : TraceState)]).2).map tracePooler.getActiveCells = [{0}] ∧
    ({4} : Finset ℕ) ≠ ({0} : Finset ℕ) :=
  ⟨fun σ FL P sdrOf fls cols => ⟨rfl, rfl⟩, by decide, by decide, by decide⟩

lemma summarize_eq (trials : List (ℕ × ℕ)) (cT iT : ℕ) (h : trials ≠ []) :
    summarize trials cT iT =
      some ((trials.countP (fun p => decide (cT ≤ p.1 ∧ p.2 ≤ iT)) : ℚ) /
        (trials.length : ℚ)) := by
  unfold summarize
  rw [if_neg (by simpa [List.length_eq_zero] using h),
    List.countP_eq_length_filter]

/-- Claim C7: `summarize` returns the fraction of trial results whose
correctly-active count meets the threshold and whose incorrectly-active
count stays below its threshold; over the two results `(6, 1)` and
`(3, 3)` with thresholds 5 and 2 this fraction is `1/2`. -/
theorem summarize_success_fraction :
    summarize [(6, 1), (3, 3)] 5 2 = some (1 / 2) ∧
    ∀ (trials : List (ℕ × ℕ)) (cT iT : ℕ), trials ≠ [] →
      summarize trials cT iT =
        some ((trials.countP (fun p => decide (cT ≤ p.1 ∧ p.2 ≤ iT)) : ℚ) /
          (trials.length : ℚ)) := by
  constructor
  · rw [summarize_eq _ _ _ (by decide)]
    have hc : ([(6, 1), (3, 3)] : List (ℕ × ℕ)).countP
        (fun p => decide (5 ≤ p.1 ∧ p.2 ≤ 2)) = 1 := by decide
    rw [hc]
    norm_num
  · exact summarize_eq

theorem summarize_success_fraction_witness :
    summarize [(6, 1), (3, 3)] 5 2 =
      some ((([(6, 1), (3, 3)] : List (ℕ × ℕ)).countP
          (fun p => decide (5 ≤ p.1 ∧ p.2 ≤ 2)) : ℚ) /
        (([(6, 1), (3, 3)] : List (ℕ × ℕ)).length : ℚ)) :=
  summarize_success_fraction.2 [(6, 1), (3, 3)] 5 2 (by decide)

lemma count_flatten_replicate (L : List ℕ) (i : ℕ) :
    ∀ n : ℕ, ((List.replicate n L).flatten.count i) = n * L.count i := by
  intro n
  induction n with
  | zero => simp
  | succ n ih =>
    simp only [List.replicate_succ, List.flatten_cons, List.count_append, ih]
    ring

lemma relaxLoop_count_column {σ : Type} (P : ColumnPooler σ)
    (ff : ℕ → ℕ → Finset ℕ × ℕ) (learn : Bool) (n : ℕ) (cols : List σ)
    (pos : ℕ) (i : ℕ) (hi : i < cols.length) :
    ((relaxLoop P ff learn n cols pos).calls.map ComputeCall.column).count i =
      n := by
  rw [relaxLoop_calls_column, count_flatten_replicate,
    List.count_eq_one_of_mem (List.nodup_range _) (List.mem_range.mpr hi),
    Nat.mul_one]

/-- Claim C8 counterexample: with one column and one feature-location, the
learning pass of lines 141-148 invokes the column's `compute` exactly 4
times — one compute per iteration of the `for _ in xrange(4)` loop — and
not `repetitions * relaxationSteps` times (which for the 4 presented
touches and 3-4 claimed relaxation steps each would be 12 or 16). -/
theorem learnFeatureLocation_four_calls_example :
    (learnFeatureLocation tracePooler (fun _ _ => ({0} : Finset ℕ)) ()
        [([] : TraceState)] 0).calls.length = 4 ∧
    ¬ ((learnFeatureLocation tracePooler (fun _ _ => ({0} : Finset ℕ)) ()
          [([] : TraceState)] 0).calls.length = 4 * 3 ∨
       (learnFeatureLocation tracePooler (fun _ _ => ({0} : Finset ℕ)) ()
          [([] : TraceState)] 0).calls.length = 4 * 4) := by
  exact ⟨by decide, by decide⟩

/-- Claim C8 (amended): during learning, each feature-location is
presented through exactly 4 iterations of the settle loop with
`learn=true`, each iteration performing a single `compute` per column
against a fresh lateral snapshot (equivalently: one settle of 4
relaxation steps, not `repetitions` touches of 3-4 relaxation steps
each).  Every column's `compute` is invoked exactly 4 times per
feature-location, with the column's codebook pattern as feedforward
input. -/
theorem learnFeatureLocation_compute_count :
    ∀ (σ FL : Type) (P : ColumnPooler σ) (sdrOf : ℕ → FL → Finset ℕ)
      (fl : FL) (cols : List σ) (pos : ℕ),
      (learnFeatureLocation P sdrOf fl cols pos).calls.length =
          4 * cols.length ∧
      (∀ i, i < cols.length →
        ((learnFeatureLocation P sdrOf fl cols pos).calls.map
            ComputeCall.column).count i = 4) ∧
      (∀ c ∈ (learnFeatureLocation P sdrOf fl cols pos).calls,
        c.learn = true ∧ c.feedforward = sdrOf c.column fl) := by
  intro σ FL P sdrOf fl cols pos
  refine ⟨?_, ?_, ?_⟩
  · have hmap := relaxLoop_calls_column P (fun i p => (sdrOf i fl, p)) true
      4 cols pos
    have hlen : (learnFeatureLocation P sdrOf fl cols pos).calls.length =
        ((List.replicate 4 (List.range cols.length)).flatten).length := by
      rw [← hmap, List.length_map]
      rfl
    rw [hlen]
    simp
    omega
  · intro i hi
    exact relaxLoop_count_column P (fun i p => (sdrOf i fl, p)) true 4 cols
      pos i hi
  · intro c hc
    exact relaxLoop_fields P (fun i p => (sdrOf i fl, p)) true
      (fun i => sdrOf i fl) (fun i p => rfl) 4 cols pos c hc

theorem learnFeatureLocation_compute_count_witness :
    ((learnFeatureLocation tracePooler (fun _ _ => ({0} : Finset ℕ)) ()
        [([] : TraceState)] 0).calls.map ComputeCall.column).count 0 = 4 ∧
    (⟨0, {0}, [], true⟩ : ComputeCall).learn = true ∧
    (⟨0, {0}, [], true⟩ : ComputeCall).feedforward = ({0} : Finset ℕ) :=
  ⟨(learnFeatureLocation_compute_count TraceState Unit tracePooler
      (fun _ _ => {0}) () [[]] 0).2.1 0 (by decide),
   (learnFeatureLocation_compute_count TraceState Unit tracePooler
      (fun _ _ => {0}) () [[]] 0).2.2 ⟨0, {0}, [], true⟩ (by decide)⟩

/-- Claim C10: every recorded trial-result pair consists of the size of
the intersection and the size of the difference between the column's
post-settle active cells and its learned representation, so the two
counts sum to the column's total active-cell count and the first count
never exceeds the learned representation's size. -/
theorem recordResults_partition :
    ∀ (σ : Type) (P : ColumnPooler σ) (cols : List σ)
      (learned : List (Finset ℕ)) (k : ℕ) (s : σ) (L : Finset ℕ)
      (p : ℕ × ℕ),
      cols[k]? = some s → learned[k]? = some L →
      (recordResults P cols learned)[k]? = some p →
      p.1 + p.2 = (P.getActiveCells s).card ∧ p.1 ≤ L.card := by
  intro σ P cols
  induction cols with
  | nil => intro learned k s L p hs hL hp; simp at hs
  | cons c cs ih =>
    intro learned k s L p hs hL hp
    cases learned with
    | nil => simp at hL
    | cons L0 Ls =>
      cases k with
      | zero =>
        simp only [List.getElem?_cons_zero, Option.some.injEq] at hs hL
        simp only [recordResults, List.zipWith_cons_cons,
          List.getElem?_cons_zero, Option.some.injEq] at hp
        subst hs
        subst hL
        subst hp
        constructor
        · exact Finset.card_inter_add_card_sdiff _ _
        · exact Finset.card_le_card Finset.inter_subset_right
      | succ k =>
        simp only [List.getElem?_cons_succ] at hs hL
        simp only [recordResults, List.zipWith_cons_cons,
          List.getElem?_cons_succ] at hp
        exact ih Ls k s L p hs hL hp

theorem recordResults_partition_witness :
    ((0 : ℕ), (1 : ℕ)).1 + ((0 : ℕ), (1 : ℕ)).2 =
      (tracePooler.getActiveCells [({0}, [], false)]).card ∧
    ((0 : ℕ), (1 : ℕ)).1 ≤ ({7} : Finset ℕ).card :=
  recordResults_partition TraceState tracePooler [[({0}, [], false)]] [{7}]
    0 [({0}, [], false)] {7} (0, 1) (by decide) (by decide) (by decide)
